import Mathlib

/-!
Shallow embedding of the `etl_client` ETL pipeline
(`src/etl_client/src/etl_client/`): the transformation rules in
`models.py`, the retry layers in `http_client.py`, the chunking, worker
and progress-counter logic in `batch_processor.py`, and the pagination
loop in `pagination.py`.  Python strings are modelled as Lean `String`s
(operated on through their character lists), machine integers as
`Int`/`Nat`, exceptions as `Except` values, and the network as explicit
outcome functions supplied to the modelled code.
-/

namespace EtlClient

/-! ### Python string primitives

`str.strip()` and `str.split(",")` as used by
`TransformedAnimal.transform_friends` in `models.py`. -/

/-- The ASCII whitespace characters recognised by Python's `str.strip()`
(space, tab, newline, carriage return, vertical tab, form feed). -/
def isPySpace (c : Char) : Bool :=
  c = ' ' || c = '\t' || c = '\n' || c = '\r' || c = '\x0b' || c = '\x0c'

/-- `str.strip()` on a character list: drop whitespace from both ends. -/
def charStrip (l : List Char) : List Char :=
  ((l.dropWhile isPySpace).reverse.dropWhile isPySpace).reverse

/-- Python `s.strip()`. -/
def pyStrip (s : String) : String :=
  ⟨charStrip s.data⟩

/-- Python `s.split(sep)` for a one-character separator, on character
lists: splits at every occurrence of `sep`, keeping empty pieces; the
empty string yields `[[]]`, matching `"".split(",") == [""]`. -/
def pySplitChars (sep : Char) : List Char → List (List Char)
  | [] => [[]]
  | c :: cs =>
    let r := pySplitChars sep cs
    if c = sep then [] :: r
    else (c :: r.headD []) :: r.tail

/-- Python `s.split(sep)` for a one-character separator. -/
def pySplit (s : String) (sep : Char) : List String :=
  (pySplitChars sep s.data).map (fun cs => ⟨cs⟩)

/-! ### `TransformedAnimal.transform_friends` (models.py)

The pydantic value arriving at the validator is either `None`, an
already-split list of strings, a raw string, or something else. -/

/-- Possible shapes of the `friends` value handed to pydantic. -/
inductive FriendsValue where
  | null : FriendsValue
  | list (l : List String) : FriendsValue
  | str (s : String) : FriendsValue
  | other : FriendsValue
  deriving DecidableEq

/-- `TransformedAnimal.transform_friends` from `models.py`:
`None → []`; a list passes through; a string is split on `,`, each piece
stripped, empty pieces dropped, with a short-circuit for the empty or
whitespace-only string; anything else maps to `[]`. -/
def transform_friends : FriendsValue → List String
  | .null => []
  | .list l => l
  | .str v =>
    if v = "" || pyStrip v = "" then []
    else (pySplit v ',').filterMap (fun f =>
      if pyStrip f = "" then none else some (pyStrip f))
  | .other => []

/-- The spec's description of the string case of the friends
transformation, with no special case for empty input: split on `,`, trim
each piece, drop pieces that become empty after trimming. -/
def splitFriendsSpec (s : String) : List String :=
  (pySplit s ',').filterMap (fun f =>
    if pyStrip f = "" then none else some (pyStrip f))

/-! ### `TransformedAnimal.transform_born_at` (models.py)

`datetime.fromtimestamp(v / 1000).isoformat()`: the epoch-millisecond
value is converted to seconds and rendered as the local calendar
representation of that instant.  The fixed local-clock context is
modelled as a UTC offset in seconds; the Gregorian calendar conversion
follows the civil-from-days algorithm used by standard libraries. -/

/-- Left-pad the decimal representation of `n` with zeros to `w` digits. -/
def padNum (w : Nat) (n : Nat) : String :=
  let s := toString n
  ⟨List.replicate (w - s.length) '0'⟩ ++ s

/-- Render epoch milliseconds `ms` as the ISO-8601 string of its local
calendar representation under a fixed UTC offset `tzOffsetSec` (in
seconds), as `datetime.fromtimestamp(ms / 1000).isoformat()` does:
`YYYY-MM-DDTHH:MM:SS`, with a 6-digit fractional part appended only when
the sub-second microseconds are nonzero. -/
def isoFromMillis (tzOffsetSec : Int) (ms : Int) : String :=
  let localMs : Int := ms + tzOffsetSec * 1000
  let day : Int := Int.fdiv localMs 86400000
  let msOfDay : Nat := (localMs - day * 86400000).toNat
  let z : Int := day + 719468
  let era : Int := Int.fdiv z 146097
  let doe : Nat := (z - era * 146097).toNat
  let yoe : Nat := (doe - doe / 1460 + doe / 36524 - doe / 146096) / 365
  let y : Int := (yoe : Int) + era * 400
  let doy : Nat := doe - (365 * yoe + yoe / 4 - yoe / 100)
  let mp : Nat := (5 * doy + 2) / 153
  let d : Nat := doy - (153 * mp + 2) / 5 + 1
  let m : Nat := if mp < 10 then mp + 3 else mp - 9
  let year : Int := if m ≤ 2 then y + 1 else y
  let hour : Nat := msOfDay / 3600000
  let minute : Nat := msOfDay / 60000 % 60
  let second : Nat := msOfDay / 1000 % 60
  let micro : Nat := msOfDay % 1000 * 1000
  padNum 4 year.toNat ++ "-" ++ padNum 2 m ++ "-" ++ padNum 2 d ++ "T" ++
    padNum 2 hour ++ ":" ++ padNum 2 minute ++ ":" ++ padNum 2 second ++
    (if micro = 0 then "" else "." ++ padNum 6 micro)

/-- `TransformedAnimal.transform_born_at` from `models.py`, under a
fixed local-clock context `tzOffsetSec`: `None` stays `None`; an
epoch-millisecond value is divided by 1000 and rendered through
`datetime.fromtimestamp(...).isoformat()` (local calendar, no UTC
normalisation). -/
def transform_born_at (tzOffsetSec : Int) : Option Int → Option String
  | none => none
  | some v => some (isoFromMillis tzOffsetSec v)

/-! ### `BaseAnimal.parse_born_at` / `AnimalDetail.parse_born_at` (models.py)

The validator receives `None`, an int, a string, a datetime, or some
other value.  The two library parsers it tries on strings —
`datetime.fromisoformat` and `int(float(...))` — can fail; the code
catches exactly those failures, so they are modelled as
`Option`-returning functions supplied as parameters. -/

/-- Possible shapes of the `born_at` value handed to pydantic. -/
inductive BornAtValue where
  | null : BornAtValue
  | int (n : Int) : BornAtValue
  | str (s : String) : BornAtValue
  | datetime (epochMs : Int) : BornAtValue
  | other : BornAtValue
  deriving DecidableEq

/-- `parse_born_at` from `models.py` (identical on `BaseAnimal` and
`AnimalDetail`), parametrised by the two fallible string parsers it
tries in order: `isoParse s` models
`int(datetime.fromisoformat(s.replace('Z', '+00:00')).timestamp() * 1000)`
and `numParse s` models `int(float(s))`, each `none` exactly when the
library call raises.  Every failure is caught, so the validator is total
and a string neither parser accepts coerces to `None`. -/
def parse_born_at (isoParse numParse : String → Option Int) :
    BornAtValue → Option Int
  | .null => none
  | .int n => some n
  | .str s =>
    match isoParse s with
    | some ms => some ms
    | none =>
      match numParse s with
      | some n => some n
      | none => none
  | .datetime epochMs => some epochMs
  | .other => none

/-! ### Exceptions -/

/-- The Python exception values the modelled code distinguishes. -/
inductive PyError where
  /-- A plain `ValueError(msg)`. -/
  | valueError (msg : String) : PyError
  /-- A pydantic `ValidationError`. -/
  | validationError : PyError
  /-- `requests.HTTPError` raised by `raise_for_status` for `status`. -/
  | httpError (status : Nat) : PyError
  /-- `requests.ConnectionError`. -/
  | connError : PyError
  /-- `requests.Timeout`. -/
  | timeoutError : PyError
  deriving DecidableEq

/-! ### `AnimalDetail` field validation (models.py)

`AnimalDetail.friends` is declared `List[str]` with no custom
validator, so pydantic's list validation applies unchanged: a Python
list is accepted as-is, while a plain string (or `None`, or any
non-sequence value) raises a `ValidationError`. -/

/-- Pydantic validation of the `friends: List[str]` field of
`AnimalDetail`: only an actual list is a valid list; a raw string is
rejected (strings are not sequence-like for pydantic's list fields). -/
def animalDetailFriendsField : FriendsValue → Except PyError (List String)
  | .list l => .ok l
  | _ => .error .validationError

/-- `BatchProcessor._fetch_single_animal` restricted to the fate of the
`friends` field: the detail response is parsed into `AnimalDetail`, and
any exception is caught and turned into `None` (the record is dropped). -/
def fetch_single_animal_friends (respFriends : FriendsValue) :
    Option (List String) :=
  match animalDetailFriendsField respFriends with
  | .ok l => some l
  | .error _ => none

/-! ### `AnimalAPIClient._make_request` (http_client.py)

The adapter-level `urllib3.util.retry.Retry` strategy is configured
with `status_forcelist=[500, 502, 503, 504]`; on top of it,
`_make_request` is wrapped by tenacity with
`retry=retry_if_exception_type(requests.RequestException)`,
`stop=stop_after_attempt(settings.api_max_retries)` and
`reraise=True`.  One tenacity attempt is modelled by its observable
outcome: a connection failure, a timeout, or an HTTP response with a
status code, supplied by a function from the attempt index. -/

/-- The status codes the urllib3 adapter retries at the status level
(`status_forcelist` in `AnimalAPIClient.__init__`). -/
def statusForcelist : List Nat := [500, 502, 503, 504]

/-- Observable outcome of one attempt of `session.request`. -/
inductive AttemptOutcome where
  | connFailure : AttemptOutcome
  | timeout : AttemptOutcome
  | response (status : Nat) : AttemptOutcome
  deriving DecidableEq

/-- `response.raise_for_status()`: statuses `≥ 400` raise
`requests.HTTPError`; otherwise the status is returned. -/
def raise_for_status (status : Nat) : Except PyError Nat :=
  if 400 ≤ status then .error (.httpError status) else .ok status

/-- The body of one `_make_request` attempt: perform the request and
call `raise_for_status` on the response. -/
def runAttempt : AttemptOutcome → Except PyError Nat
  | .connFailure => .error .connError
  | .timeout => .error .timeoutError
  | .response s => raise_for_status s

/-- `retry_if_exception_type(requests.RequestException)`:
`ConnectionError`, `Timeout` and `HTTPError` are all subclasses of
`requests.RequestException`, so every one of them is retryable to
tenacity — the HTTP status is never consulted. -/
def isRequestException : PyError → Bool
  | .connError => true
  | .timeoutError => true
  | .httpError _ => true
  | _ => false

/-- The tenacity retry loop around `_make_request`: `i` is the 0-based
index of the current attempt and `remaining` the number of attempts
still allowed (initially `api_max_retries`, matching
`stop_after_attempt`).  Returns the final `Except` outcome together
with the total number of attempts made; with `reraise=True` the last
exception is reraised once attempts are exhausted. -/
def tenacityGo (attempts : Nat → AttemptOutcome) (i : Nat) :
    Nat → Except PyError Nat × Nat
  | 0 => (.error .connError, i)
  | remaining + 1 =>
    match runAttempt (attempts i) with
    | .ok v => (.ok v, i + 1)
    | .error e =>
      if isRequestException e && remaining != 0 then
        tenacityGo attempts (i + 1) remaining
      else (.error e, i + 1)

/-- `AnimalAPIClient._make_request` under a given outcome stream and
`settings.api_max_retries = maxRetries`: the result of the tenacity
loop and the number of attempts it made. -/
def make_request (attempts : Nat → AttemptOutcome) (maxRetries : Nat) :
    Except PyError Nat × Nat :=
  tenacityGo attempts 0 maxRetries

/-! ### `BatchProcessor` (batch_processor.py) -/

/-- Python `range(start, stop, step)` for `step > 0`:
`max(0, ceil((stop - start) / step))` elements, the `k`-th being
`start + k * step` (the documented closed form of `range`). -/
def pyRange (start stop step : Nat) : List Nat :=
  (List.range ((stop - start + step - 1) / step)).map (fun k => start + k * step)

/-- The chunking loop of `BatchProcessor.process_animals`:
`for i in range(0, len(animal_ids), batch_size)` enqueues the slice
`animal_ids[i : i + batch_size]`. -/
def process_chunks (animal_ids : List Int) (batch_size : Nat) : List (List Int) :=
  (pyRange 0 animal_ids.length batch_size).map
    (fun i => (animal_ids.drop i).take batch_size)

/-- `total_batches = (len(animal_ids) + self.batch_size - 1) // self.batch_size`
from `process_animals`. -/
def total_batches (nAnimals batch_size : Nat) : Nat :=
  (nAnimals + batch_size - 1) / batch_size

/-- `BatchProcessor._post_animals_batch` with the network call abstracted:
more than 100 records raise `ValueError("Batch size cannot exceed 100
animals")` before the transport is touched; otherwise the batch is
handed to `post_animals_home`.  The second component records whether a
network call was made.  The surrounding `try/except` only logs and
re-raises, so it is the identity on the outcome. -/
def post_animals_batch (postCall : List α → Except PyError String)
    (transformed_animals : List α) : Except PyError String × Bool :=
  if transformed_animals.length > 100 then
    (.error (.valueError "Batch size cannot exceed 100 animals"), false)
  else (postCall transformed_animals, true)

/-- What the `etl_worker` body in `process_animals` does to the shared
`completed_batches` counter for one chunk: the `with progress_lock`
increment sits inside the `try` block after the post, so it runs exactly
when the chunk's fetch–transform–post raised no exception; a raising
chunk is caught by the `except` arm, which only logs. -/
def worker_counter_step (completed_batches : Nat) (chunkRaised : Bool) : Nat :=
  if chunkRaised then completed_batches else completed_batches + 1

/-- The final value of `completed_batches` after all chunks are
processed, given for each chunk whether its body raised.  The increments
happen under one lock and commute, so any interleaving of the workers
yields this fold. -/
def final_completed_batches (chunkRaised : List Bool) : Nat :=
  chunkRaised.foldl worker_counter_step 0

/-! ### `PaginationHandler.get_all_animal_ids` (pagination.py)

The loop state is the next page number, the `total_pages` option and
the accumulated ids.  A page fetch either succeeds with a list of ids
and a declared `total_pages`, or fails (every exception is caught, the
page skipped and the counter advanced).  The `while` loop is modelled
with explicit fuel: `none` means the loop was still running after that
many iterations. -/

/-- State of the pagination loop. -/
structure PagState where
  page : Nat
  totalPages : Option Nat
  acc : List Int
  deriving DecidableEq

/-- Initial state: `page = 1`, `total_pages = None`, no ids. -/
def pagInit : PagState := ⟨1, none, []⟩

/-- The `while total_pages is None or page <= total_pages` condition. -/
def pagCond (st : PagState) : Bool :=
  match st.totalPages with
  | none => true
  | some tp => st.page ≤ tp

/-- One iteration of the loop body on state `st`: on success the ids
are appended, `total_pages` is set if it was still `None`, and the page
advances; on failure (the `except` arm) the page just advances. -/
def pagStep (fetch : Nat → Option (List Int × Nat)) (st : PagState) : PagState :=
  match fetch st.page with
  | some (ids, tp) =>
    { page := st.page + 1
      totalPages := match st.totalPages with
        | none => some tp
        | some t => some t
      acc := st.acc ++ ids }
  | none => { st with page := st.page + 1 }

/-- Run the pagination loop for at most `fuel` iterations: `some ids`
when the condition became false (DONE) within the fuel, `none` when the
loop was still running. -/
def pagRun (fetch : Nat → Option (List Int × Nat)) : Nat → PagState → Option (List Int)
  | 0, _ => none
  | fuel + 1, st =>
    if pagCond st then pagRun fetch fuel (pagStep fetch st)
    else some st.acc

/-- `get_all_animal_ids` terminates: some number of iterations reaches
DONE. -/
def PagTerminates (fetch : Nat → Option (List Int × Nat)) : Prop :=
  ∃ fuel, (pagRun fetch fuel pagInit).isSome

/-- The ids contributed by page `p`: its fetched ids on success, nothing
on failure (the page is skipped). -/
def pagIdsOf (fetch : Nat → Option (List Int × Nat)) (p : Nat) : List Int :=
  match fetch p with
  | some (ids, _) => ids
  | none => []

/-- Ordered concatenation of the ids of the successful pages among the
`n` pages starting at page `p`. -/
def pagSuccessIdsFrom (fetch : Nat → Option (List Int × Nat)) (p n : Nat) :
    List Int :=
  ((List.range' p n).map (pagIdsOf fetch)).flatten

/-- Ordered concatenation of the ids of the successful pages among pages
`1..n`: what the accumulated list should contain after visiting them. -/
def pagSuccessIds (fetch : Nat → Option (List Int × Nat)) (n : Nat) : List Int :=
  pagSuccessIdsFrom fetch 1 n

/-! ## Theorems -/

/-- C2 counterexample: handing `_post_animals_batch` 101 records makes it
raise a plain `ValueError("Batch size cannot exceed 100 animals")` with no
network call — not a pydantic `ValidationError` as the claim states; the
two exception types are distinct. -/
theorem post_batch_101_raises_value_error_not_validation :
    post_animals_batch (fun _ => .ok "ok") (List.replicate 101 (0 : Int))
      = (.error (.valueError "Batch size cannot exceed 100 animals"), false)
    ∧ PyError.valueError "Batch size cannot exceed 100 animals"
      ≠ PyError.validationError := by
  exact ⟨rfl, by decide⟩

/-- C2 (amended): `_post_animals_batch` rejects a list of more than 100
records locally — raising `ValueError` before any network call is made —
while a list of at most 100 records (in particular exactly 100) is passed
to the transport unchanged. -/
theorem post_batch_size_guard (postCall : List α → Except PyError String)
    (animals : List α) :
    (animals.length > 100 →
      post_animals_batch postCall animals
        = (.error (.valueError "Batch size cannot exceed 100 animals"), false))
    ∧ (animals.length ≤ 100 →
      post_animals_batch postCall animals = (postCall animals, true)) := by
  constructor
  · intro h
    simp [post_animals_batch, h]
  · intro h
    simp [post_animals_batch, Nat.not_lt.mpr h]

/-- Witness for C2: a 101-record batch is rejected locally with a
`ValueError` and no network call, while a 100-record batch reaches the
(mocked) transport. -/
theorem post_batch_size_guard_witness :
    post_animals_batch (fun _ => .ok "sent") (List.replicate 101 (0 : Int))
      = (.error (.valueError "Batch size cannot exceed 100 animals"), false)
    ∧ post_animals_batch (fun _ => .ok "sent") (List.replicate 100 (0 : Int))
      = (.ok "sent", true) :=
  ⟨(post_batch_size_guard _ _).1 (by simp),
   (post_batch_size_guard _ _).2 (by simp)⟩

/-- C5 (the code is at fault): `AnimalDetail.friends` is declared
`List[str]` with no validator, so pydantic rejects a comma-delimited
string with a `ValidationError`, and `_fetch_single_animal` then drops
the record; only the already-split list shape is accepted.  The
repository's own tests (`tests/test_transformer.py`) construct
`AnimalDetail(..., friends="Dog,Cat,Elephant")` and expect success, and
the spec requires both shapes, so the missing validator is a slip in the
code. -/
theorem animal_detail_rejects_string_friends :
    animalDetailFriendsField (.str "Dog,Cat,Elephant") = .error .validationError
    ∧ fetch_single_animal_friends (.str "Dog,Cat,Elephant") = none
    ∧ animalDetailFriendsField (.list ["Dog", "Cat", "Elephant"])
      = .ok ["Dog", "Cat", "Elephant"]
    ∧ transform_friends (.list ["Dog", "Cat", "Elephant"])
      = ["Dog", "Cat", "Elephant"] :=
  ⟨rfl, rfl, rfl, rfl⟩

/-- C8 counterexample: a single chunk whose body raises leaves
`completed_batches` at 0, while the claim demands it equal the total
number of chunks, 1. -/
theorem progress_counter_misses_failed_chunk :
    final_completed_batches [true] = 0
    ∧ [true].length = 1
    ∧ (0 : Nat) ≠ 1 :=
  ⟨rfl, rfl, by decide⟩

/-- The fold computing `completed_batches` adds one per non-raising
chunk, starting from any accumulator. -/
theorem final_completed_batches_aux (chunkRaised : List Bool) :
    ∀ acc, chunkRaised.foldl worker_counter_step acc
      = acc + (chunkRaised.filter (fun r => !r)).length := by
  induction chunkRaised with
  | nil => intro acc; simp
  | cons r rest ih =>
    intro acc
    cases r
    · simp [worker_counter_step, ih]
      omega
    · simp [worker_counter_step, ih]

/-- C8 (amended): the progress counter is incremented, under the single
progress lock, exactly once per chunk whose processing raised no
exception; chunks that fail are skipped by the increment (it sits inside
the `try` block), so when the scheduler returns the counter equals the
number of successfully processed chunks, which is at most — and not in
general equal to — the total number of chunks. -/
theorem progress_counter_counts_successful_chunks (chunkRaised : List Bool) :
    final_completed_batches chunkRaised
      = (chunkRaised.filter (fun r => !r)).length
    ∧ final_completed_batches chunkRaised ≤ chunkRaised.length := by
  have h := final_completed_batches_aux chunkRaised 0
  refine ⟨by simpa [final_completed_batches] using h, ?_⟩
  rw [final_completed_batches, h]
  simpa using List.length_filter_le _ _

/-- C10: a `born_at` string that neither library parser accepts is
silently coerced to `None`: the validator catches both parse failures
(`ValueError`/`TypeError`) itself, so it is total — record parsing
proceeds with `born_at = None` and the record is never dropped. -/
theorem malformed_born_at_coerces_to_none
    (isoParse numParse : String → Option Int) (s : String)
    (hIso : isoParse s = none) (hNum : numParse s = none) :
    parse_born_at isoParse numParse (.str s) = none := by
  simp [parse_born_at, hIso, hNum]

/-- Witness for C10: with parsers that reject the string `"not-a-date"`,
`parse_born_at` yields `None` rather than an error. -/
theorem malformed_born_at_coerces_to_none_witness :
    parse_born_at (fun _ => none) (fun _ => none) (.str "not-a-date") = none :=
  malformed_born_at_coerces_to_none (fun _ => none) (fun _ => none)
    "not-a-date" rfl rfl

/-- C4: `transform_born_at` maps an absent `born_at` to absent and a
present epoch-millisecond value to the ISO-8601 rendering of the local
calendar representation of that instant (epoch value divided by 1000
into seconds) under the fixed clock/timezone context; being a pure
function of the value and the fixed offset, the rendering is
deterministic.  The concrete conjuncts pin the rendering down
(`1640995200000` is 2022-01-01 00:00:00 UTC) and show the local offset
enters the output — the instant is not normalised to UTC. -/
theorem transform_born_at_local_rendering :
    (∀ tzOffsetSec : Int, transform_born_at tzOffsetSec none = none)
    ∧ (∀ tzOffsetSec v, transform_born_at tzOffsetSec (some v)
        = some (isoFromMillis tzOffsetSec v))
    ∧ transform_born_at 0 (some 1640995200000) = some "2022-01-01T00:00:00"
    ∧ transform_born_at 3600 (some 1640995200000) = some "2022-01-01T01:00:00"
    ∧ transform_born_at 3600 (some 1640995200000)
      ≠ transform_born_at 0 (some 1640995200000) :=
  ⟨fun _ => rfl, fun _ _ => rfl, by decide, by decide, by decide⟩

/-- A list whose `dropWhile` by `p` is followed through both ends:
`charStrip l` is empty exactly when every character of `l` is Python
whitespace. -/
theorem charStrip_eq_nil_iff (l : List Char) :
    charStrip l = [] ↔ ∀ c ∈ l, isPySpace c := by
  unfold charStrip
  rw [List.reverse_eq_nil_iff, List.dropWhile_eq_nil_iff]
  constructor
  · intro h c hc
    have hsplit := List.takeWhile_append_dropWhile (p := isPySpace) (l := l)
    rw [← hsplit] at hc
    rcases List.mem_append.mp hc with h1 | h2
    · exact List.mem_takeWhile_imp h1
    · exact h c (List.mem_reverse.mpr h2)
  · intro h c hc
    exact h c (List.dropWhile_subset _ (List.mem_reverse.mp hc))

/-- Splitting a list that contains no separator yields the single piece. -/
theorem pySplitChars_no_sep (sep : Char) (l : List Char)
    (h : ∀ c ∈ l, c ≠ sep) : pySplitChars sep l = [l] := by
  induction l with
  | nil => rfl
  | cons c cs ih =>
    have hc : c ≠ sep := h c (List.mem_cons_self c cs)
    have hrest : pySplitChars sep cs = [cs] :=
      ih (fun x hx => h x (List.mem_cons_of_mem c hx))
    simp [pySplitChars, hrest, hc]

/-- The whitespace-only short-circuit in `transform_friends` agrees with
the general split-trim-drop path: a whitespace-only string contains no
comma, so it splits into one piece that strips to empty and is dropped. -/
theorem splitFriendsSpec_of_strip_empty (s : String) (h : pyStrip s = "") :
    splitFriendsSpec s = [] := by
  have hnil : charStrip s.data = [] := congrArg String.data h
  have hws : ∀ c ∈ s.data, isPySpace c := (charStrip_eq_nil_iff s.data).mp hnil
  have hnosep : ∀ c ∈ s.data, c ≠ ',' := by
    intro c hc heq
    have := hws c hc
    rw [heq] at this
    simp [isPySpace] at this
  unfold splitFriendsSpec pySplit
  rw [pySplitChars_no_sep ',' s.data hnosep]
  simp [h]

/-- C3: the friends transformation.  An already-split list passes
through unchanged (hence order and duplicates are preserved).  A string
is handled exactly as the spec describes — split on `,`, strip each
piece, drop pieces that strip to empty (`splitFriendsSpec`); the code's
special case for empty/whitespace-only input agrees with that general
path, so the equation holds for every string, and the empty or
whitespace-only string yields `[]`.  The spec's two concrete examples
are included. -/
theorem transform_friends_spec_conformance :
    (∀ l, transform_friends (.list l) = l)
    ∧ (∀ s, transform_friends (.str s) = splitFriendsSpec s)
    ∧ transform_friends (.str "") = []
    ∧ transform_friends (.str " a , b ,") = ["a", "b"]
    ∧ transform_friends (.str " \t ") = [] := by
  refine ⟨fun _ => rfl, ?_, by decide, by decide, by decide⟩
  intro s
  show (if s = "" || pyStrip s = "" then []
    else (pySplit s ',').filterMap (fun f =>
      if pyStrip f = "" then none else some (pyStrip f))) = splitFriendsSpec s
  by_cases h1 : s = ""
  · subst h1
    decide
  · by_cases h2 : pyStrip s = ""
    · rw [splitFriendsSpec_of_strip_empty s h2]
      simp [h2]
    · simp [h1, h2, splitFriendsSpec]


/-- Chunking the empty identifier list yields no chunks. -/
theorem process_chunks_nil (B : Nat) : process_chunks [] B = [] := by
  rcases B with _ | b
  · rfl
  · simp [process_chunks, pyRange, Nat.div_eq_of_lt (Nat.lt_succ_self b)]

/-- `range(0, L, B)` for positive `L` and `B` is `0` followed by the
shifted `range(0, L - B, B)`. -/
theorem pyRange_zero_cons (L B : Nat) (hB : 0 < B) (hL : 0 < L) :
    pyRange 0 L B = 0 :: (pyRange 0 (L - B) B).map (fun i => i + B) := by
  have hcount : (L - 0 + B - 1) / B = (L - B - 0 + B - 1) / B + 1 := by
    rcases le_or_lt L B with hle | hlt
    · have h1 : L - 0 + B - 1 = (L - 1) + B := by omega
      have h2 : L - B - 0 + B - 1 = B - 1 := by omega
      rw [h1, h2, Nat.add_div_right _ hB,
        Nat.div_eq_of_lt (by omega : L - 1 < B),
        Nat.div_eq_of_lt (by omega : B - 1 < B)]
    · have h1 : L - 0 + B - 1 = ((L - B - 1) + B) + B := by omega
      have h2 : L - B - 0 + B - 1 = (L - B - 1) + B := by omega
      rw [h1, h2, Nat.add_div_right _ hB, Nat.add_div_right _ hB]
  unfold pyRange
  rw [hcount, List.range_succ_eq_map, List.map_cons, List.map_map, List.map_map]
  congr 1
  · simp
  · refine List.map_congr_left ?_
    intro k _
    simp [Nat.succ_mul]

/-- Unfolding one chunk: the first chunk is the first `B` identifiers
and the rest is the chunking of the remainder. -/
theorem process_chunks_cons (l : List Int) (B : Nat) (hB : 0 < B) (hl : l ≠ []) :
    process_chunks l B = l.take B :: process_chunks (l.drop B) B := by
  have hL : 0 < l.length := List.length_pos.mpr hl
  unfold process_chunks
  rw [pyRange_zero_cons l.length B hB hL, List.map_cons, List.map_map,
    List.length_drop]
  congr 1
  refine List.map_congr_left ?_
  intro k _
  simp [List.drop_drop, Nat.add_comm]

/-- Concatenating all chunks in order reconstructs the identifier list. -/
theorem process_chunks_flatten_aux (B : Nat) (hB : 0 < B) :
    ∀ n (l : List Int), l.length ≤ n → (process_chunks l B).flatten = l := by
  intro n
  induction n with
  | zero =>
    intro l h
    have hnil : l = [] := List.length_eq_zero.mp (Nat.le_zero.mp h)
    subst hnil
    rw [process_chunks_nil]
    rfl
  | succ n ih =>
    intro l h
    by_cases hl : l = []
    · subst hl
      rw [process_chunks_nil]
      rfl
    · have hL := List.length_pos.mpr hl
      rw [process_chunks_cons l B hB hl, List.flatten_cons,
        ih (l.drop B) (by rw [List.length_drop]; omega), List.take_append_drop]

/-- C6: for every identifier list and every batch size `B > 0`, the
chunking loop of `process_animals` produces exactly
`ceil(len/B) = (len + B - 1) / B` chunks (the code's own `total_batches`
formula); chunk `k` is the slice `animal_ids[k*B : k*B + B]`, i.e. it
covers indices `[k*B, min((k+1)*B, len))`; every chunk has at most `B`
elements; and the in-order concatenation of all chunks is the original
list. -/
theorem chunk_partition_correct (l : List Int) (B : Nat) (hB : 0 < B) :
    (process_chunks l B).length = total_batches l.length B
    ∧ (∀ k, k < total_batches l.length B →
        (process_chunks l B)[k]? = some ((l.drop (k * B)).take B))
    ∧ (∀ c ∈ process_chunks l B, c.length ≤ B)
    ∧ (process_chunks l B).flatten = l := by
  refine ⟨by simp [process_chunks, pyRange, total_batches], ?_, ?_, ?_⟩
  · intro k hk
    have hk' : k < (l.length - 0 + B - 1) / B := by
      simpa [total_batches] using hk
    have hk2 : k < (l.length + B - 1) / B := by simpa using hk'
    have hidx : (pyRange 0 l.length B)[k]? = some (0 + k * B) := by
      simp [pyRange, List.getElem?_map, List.getElem?_range, hk2]
    simp [process_chunks, List.getElem?_map, hidx]
  · intro c hc
    obtain ⟨i, _, rfl⟩ := List.mem_map.mp hc
    exact List.length_take_le _ _
  · exact process_chunks_flatten_aux B hB l.length l le_rfl

/-- Witness for C6: the partition facts instantiated at the list
`[1,2,3,4,5]` with batch size 2. -/
theorem chunk_partition_correct_witness :
    (process_chunks [1, 2, 3, 4, 5] 2).length
      = total_batches ([1, 2, 3, 4, 5] : List Int).length 2
    ∧ (∀ k, k < total_batches ([1, 2, 3, 4, 5] : List Int).length 2 →
        (process_chunks [1, 2, 3, 4, 5] 2)[k]?
          = some ((([1, 2, 3, 4, 5] : List Int).drop (k * 2)).take 2))
    ∧ (∀ c ∈ process_chunks [1, 2, 3, 4, 5] 2, c.length ≤ 2)
    ∧ (process_chunks [1, 2, 3, 4, 5] 2).flatten = [1, 2, 3, 4, 5] :=
  chunk_partition_correct [1, 2, 3, 4, 5] 2 (by decide)


/-- Every exception an attempt can raise — `ConnectionError`, `Timeout`
or `HTTPError` of any status — is a `requests.RequestException`, so
tenacity's retry predicate accepts it. -/
theorem runAttempt_error_isRequestException (o : AttemptOutcome) (e : PyError)
    (h : runAttempt o = .error e) : isRequestException e = true := by
  cases o with
  | connFailure =>
    simp [runAttempt] at h
    subst h
    rfl
  | timeout =>
    simp [runAttempt] at h
    subst h
    rfl
  | response s =>
    by_cases hs : 400 ≤ s
    · simp [runAttempt, raise_for_status, hs] at h
      subst h
      rfl
    · simp [runAttempt, raise_for_status, hs] at h

/-- The tenacity loop makes at least one attempt when any are allowed. -/
theorem tenacityGo_snd_ge (attempts : Nat → AttemptOutcome) :
    ∀ remaining i, 1 ≤ remaining → i + 1 ≤ (tenacityGo attempts i remaining).2 := by
  intro remaining
  induction remaining with
  | zero => intro i h; omega
  | succ r ih =>
    intro i _
    cases hA : runAttempt (attempts i) with
    | ok v => simp [tenacityGo, hA]
    | error e =>
      simp only [tenacityGo, hA]
      by_cases hb : (isRequestException e && (r != 0)) = true
      · rw [if_pos hb]
        have hr : 1 ≤ r := by
          by_contra hr0
          have hr00 : r = 0 := by omega
          subst hr00
          simp at hb
        have := ih (i + 1) hr
        omega
      · rw [if_neg hb]

/-- When every allowed attempt fails, the loop uses all of them and
reraises the last error (`reraise=True`). -/
theorem tenacityGo_all_fail (attempts : Nat → AttemptOutcome) :
    ∀ remaining i, 1 ≤ remaining →
    (∀ j, j < remaining → ∃ e, runAttempt (attempts (i + j)) = .error e) →
    ∃ e, tenacityGo attempts i remaining = (.error e, i + remaining)
      ∧ runAttempt (attempts (i + remaining - 1)) = .error e := by
  intro remaining
  induction remaining with
  | zero => intro i h; omega
  | succ r ih =>
    intro i _ hfail
    obtain ⟨e0, he0⟩ := hfail 0 (by omega)
    have he0' : runAttempt (attempts i) = .error e0 := by simpa using he0
    rcases Nat.eq_zero_or_pos r with hr | hr
    · subst hr
      refine ⟨e0, ?_, by simpa using he0'⟩
      simp [tenacityGo, he0']
    · have hisReq := runAttempt_error_isRequestException _ _ he0'
      have hbne : (r != 0) = true := by
        simp [bne_iff_ne]
        omega
      obtain ⟨e, hgo, hlast⟩ := ih (i + 1) hr (fun j hj => by
        have h := hfail (j + 1) (by omega)
        have harith : i + (j + 1) = (i + 1) + j := by omega
        rwa [harith] at h)
      refine ⟨e, ?_, ?_⟩
      · simp only [tenacityGo, he0', hisReq, hbne, Bool.and_self, if_pos]
        rw [hgo]
        refine congrArg (Except.error e, ·) (by omega)
      · have harith : i + (r + 1) - 1 = (i + 1) + r - 1 := by omega
        rw [harith]
        exact hlast

/-- If the first `j + 1` attempts fail and more are allowed, at least
`j + 2` attempts are made: every failure triggers a further retry. -/
theorem tenacityGo_snd_ge_of_fail (attempts : Nat → AttemptOutcome) :
    ∀ j remaining i, j + 1 < remaining →
    (∀ k, k ≤ j → ∃ e, runAttempt (attempts (i + k)) = .error e) →
    i + j + 2 ≤ (tenacityGo attempts i remaining).2 := by
  intro j
  induction j with
  | zero =>
    intro remaining i hrem hfail
    obtain ⟨e0, he0⟩ := hfail 0 (le_refl 0)
    have he0' : runAttempt (attempts i) = .error e0 := by simpa using he0
    have hisReq := runAttempt_error_isRequestException _ _ he0'
    rcases remaining with _ | r
    · omega
    · have hr : 1 ≤ r := by omega
      have hbne : (r != 0) = true := by
        simp [bne_iff_ne]
        omega
      have hge := tenacityGo_snd_ge attempts r (i + 1) hr
      have hred : (tenacityGo attempts i (r + 1)).2
          = (tenacityGo attempts (i + 1) r).2 := by
        simp [tenacityGo, he0', hisReq, hbne]
      rw [hred]
      omega
  | succ j ih =>
    intro remaining i hrem hfail
    obtain ⟨e0, he0⟩ := hfail 0 (by omega)
    have he0' : runAttempt (attempts i) = .error e0 := by simpa using he0
    have hisReq := runAttempt_error_isRequestException _ _ he0'
    rcases remaining with _ | r
    · omega
    · have hbne : (r != 0) = true := by
        simp [bne_iff_ne]
        omega
      have hrec := ih r (i + 1) (by omega) (fun k hk => by
        have h := hfail (k + 1) (by omega)
        have harith : i + (k + 1) = (i + 1) + k := by omega
        rwa [harith] at h)
      have hred : (tenacityGo attempts i (r + 1)).2
          = (tenacityGo attempts (i + 1) r).2 := by
        simp [tenacityGo, he0', hisReq, hbne]
      rw [hred]
      omega

/-- C1 (amended): `_make_request` retries on any
`requests.RequestException` — connection failure, timeout, and `HTTPError`
of ANY status, 4xx included — not only on the transient set.  In detail:
a successful (non-error) first response returns after one attempt; any
error status `≥ 400` raises `HTTPError`, which tenacity's predicate
classifies as retryable; if every attempt fails the call makes exactly
`api_max_retries` attempts and then reraises the last error; and as long
as attempts remain, each failing attempt — a 4xx response as much as a
timeout — is followed by another attempt.  Only the urllib3 adapter layer
(`statusForcelist`) restricts status-based retries to 500/502/503/504. -/
theorem retry_applies_to_all_request_exceptions
    (attempts : Nat → AttemptOutcome) (maxRetries : Nat) :
    (∀ s, s < 400 → attempts 0 = .response s → 1 ≤ maxRetries →
      make_request attempts maxRetries = (.ok s, 1))
    ∧ (∀ s, 400 ≤ s →
      runAttempt (.response s) = .error (.httpError s)
      ∧ isRequestException (.httpError s) = true)
    ∧ ((∀ j, j < maxRetries → ∃ e, runAttempt (attempts j) = .error e) →
      1 ≤ maxRetries →
      ∃ e, make_request attempts maxRetries = (.error e, maxRetries)
        ∧ runAttempt (attempts (maxRetries - 1)) = .error e)
    ∧ (∀ j, j + 1 < maxRetries →
      (∀ k, k ≤ j → ∃ e, runAttempt (attempts k) = .error e) →
      j + 2 ≤ (make_request attempts maxRetries).2) := by
  refine ⟨?_, ?_, ?_, ?_⟩
  · intro s hs h0 hm
    rcases maxRetries with _ | r
    · omega
    · have hok : runAttempt (attempts 0) = .ok s := by
        simp [h0, runAttempt, raise_for_status, Nat.not_le.mpr hs]
      simp [make_request, tenacityGo, hok]
  · intro s hs
    exact ⟨by simp [runAttempt, raise_for_status, hs], rfl⟩
  · intro hfail hm
    have h := tenacityGo_all_fail attempts maxRetries 0 hm
      (fun j hj => by simpa using hfail j hj)
    simpa [make_request] using h
  · intro j hj hfail
    have h := tenacityGo_snd_ge_of_fail attempts j maxRetries 0 hj
      (fun k hk => by simpa using hfail k hk)
    simpa [make_request] using h

/-- C1 counterexample: a transport that always answers HTTP 404 — a
non-transient status outside the retry set — does NOT fail terminally on
the first response: with `api_max_retries = 5` the client makes 5
attempts before surfacing the `HTTPError`, because `raise_for_status`
raises a `RequestException` which the tenacity wrapper retries. -/
theorem http_404_is_retried_not_terminal :
    make_request (fun _ => .response 404) 5 = (.error (.httpError 404), 5)
    ∧ (make_request (fun _ => .response 404) 5).2 ≠ 1
    ∧ 404 ∉ statusForcelist :=
  ⟨rfl, by decide, by decide⟩

/-- Witness for C1: a 200 response succeeds in one attempt; a 404
response raises a retryable `HTTPError`; a permanently timing-out
transport consumes all 5 attempts and reraises; an all-404 transport is
retried past its first attempt. -/
theorem retry_applies_to_all_request_exceptions_witness :
    make_request (fun _ => .response 200) 5 = (.ok 200, 1)
    ∧ (runAttempt (.response 404) = .error (.httpError 404)
      ∧ isRequestException (.httpError 404) = true)
    ∧ (∃ e, make_request (fun _ => .timeout) 5 = (.error e, 5)
        ∧ runAttempt (AttemptOutcome.timeout) = .error e)
    ∧ 0 + 2 ≤ (make_request (fun _ => .response 404) 5).2 :=
  ⟨(retry_applies_to_all_request_exceptions (fun _ => .response 200) 5).1 200
      (by decide) rfl (by decide),
   (retry_applies_to_all_request_exceptions (fun _ => .response 200) 5).2.1 404
      (by decide),
   (retry_applies_to_all_request_exceptions (fun _ => .timeout) 5).2.2.1
      (fun j hj => ⟨.timeoutError, rfl⟩) (by decide),
   (retry_applies_to_all_request_exceptions (fun _ => .response 404) 5).2.2.2 0
      (by decide) (fun k hk => ⟨.httpError 404, rfl⟩)⟩


/-- Unfold one page of the expected success concatenation. -/
theorem pagSuccessIdsFrom_succ (fetch : Nat → Option (List Int × Nat))
    (p n : Nat) :
    pagSuccessIdsFrom fetch p (n + 1)
      = pagIdsOf fetch p ++ pagSuccessIdsFrom fetch (p + 1) n := by
  simp [pagSuccessIdsFrom, List.range']

/-- Pages that all fail contribute nothing to the concatenation. -/
theorem pagSuccessIdsFrom_fail_drop (fetch : Nat → Option (List Int × Nat)) :
    ∀ m p rest, (∀ j, p ≤ j → j < p + m → fetch j = none) →
    pagSuccessIdsFrom fetch p (m + rest) = pagSuccessIdsFrom fetch (p + m) rest := by
  intro m
  induction m with
  | zero => intro p rest _; simp
  | succ m ih =>
    intro p rest hfail
    have harith : (m + 1) + rest = (m + rest) + 1 := by omega
    rw [harith, pagSuccessIdsFrom_succ]
    have hp : fetch p = none := hfail p le_rfl (by omega)
    have hids : pagIdsOf fetch p = [] := by simp [pagIdsOf, hp]
    rw [hids, List.nil_append,
      ih (p + 1) rest (fun j h1 h2 => hfail j (by omega) (by omega))]
    have : p + 1 + m = p + (m + 1) := by omega
    rw [this]

/-- While `total_pages` is still unknown, a run of failing pages is
skipped one by one: each failure advances the page counter and leaves
the accumulator and the unknown `total_pages` unchanged. -/
theorem pagRun_fail_phase (fetch : Nat → Option (List Int × Nat)) :
    ∀ cnt fuel p acc, (∀ j, p ≤ j → j < p + cnt → fetch j = none) →
    pagRun fetch (cnt + fuel) ⟨p, none, acc⟩
      = pagRun fetch fuel ⟨p + cnt, none, acc⟩ := by
  intro cnt
  induction cnt with
  | zero => intro fuel p acc _; simp
  | succ c ih =>
    intro fuel p acc hfail
    have hp : fetch p = none := hfail p le_rfl (by omega)
    have harith : (c + 1) + fuel = (c + fuel) + 1 := by omega
    rw [harith]
    have hstep : pagStep fetch ⟨p, none, acc⟩ = ⟨p + 1, none, acc⟩ := by
      simp [pagStep, hp]
    have hcond : pagCond ⟨p, none, acc⟩ = true := rfl
    rw [pagRun, if_pos hcond, hstep,
      ih fuel (p + 1) acc (fun j h1 h2 => hfail j (by omega) (by omega))]
    have : p + 1 + c = p + (c + 1) := by omega
    rw [this]

/-- Once `total_pages` is known, the loop runs to `DONE` given enough
fuel and returns the accumulator extended by the ids of the successful
pages among `p..total_pages` (failed pages are skipped in place). -/
theorem pagRun_known_total (fetch : Nat → Option (List Int × Nat)) :
    ∀ fuel p tp acc, 1 ≤ fuel → tp + 1 < p + fuel →
    pagRun fetch fuel ⟨p, some tp, acc⟩
      = some (acc ++ pagSuccessIdsFrom fetch p (tp + 1 - p)) := by
  intro fuel
  induction fuel with
  | zero => intro p tp acc h _; omega
  | succ f ih =>
    intro p tp acc _ hlt
    by_cases hc : p ≤ tp
    · have hcond : pagCond ⟨p, some tp, acc⟩ = true := by
        simp [pagCond, hc]
      have hn : tp + 1 - p = (tp - p) + 1 := by omega
      rw [pagRun, if_pos hcond, hn, pagSuccessIdsFrom_succ]
      cases hf : fetch p with
      | some pr =>
        have hstep : pagStep fetch ⟨p, some tp, acc⟩
            = ⟨p + 1, some tp, acc ++ pr.1⟩ := by
          simp [pagStep, hf]
        rw [hstep, ih (p + 1) tp (acc ++ pr.1) (by omega) (by omega)]
        have hids : pagIdsOf fetch p = pr.1 := by simp [pagIdsOf, hf]
        have hn2 : tp + 1 - (p + 1) = tp - p := by omega
        rw [hids, hn2, List.append_assoc]
      | none =>
        have hstep : pagStep fetch ⟨p, some tp, acc⟩ = ⟨p + 1, some tp, acc⟩ := by
          simp [pagStep, hf]
        rw [hstep, ih (p + 1) tp acc (by omega) (by omega)]
        have hids : pagIdsOf fetch p = [] := by simp [pagIdsOf, hf]
        have hn2 : tp + 1 - (p + 1) = tp - p := by omega
        rw [hids, hn2, List.nil_append]
    · have hcond : pagCond ⟨p, some tp, acc⟩ = false := by
        simp [pagCond]
        omega
      have hn : tp + 1 - p = 0 := by omega
      rw [pagRun, if_neg (by rw [hcond]; exact Bool.false_ne_true), hn]
      simp [pagSuccessIdsFrom]

/-- Full run of `get_all_animal_ids` when the first successful page is
`k`, declaring `total_pages = tp`: the loop terminates within
`k + tp + 1` iterations and returns the ordered concatenation of the
ids of exactly the successful pages among the visited pages
`1..max k tp`. -/
theorem pagRun_first_success (fetch : Nat → Option (List Int × Nat))
    (k tp : Nat) (ids0 : List Int) (hk : 1 ≤ k)
    (hfk : fetch k = some (ids0, tp))
    (hfail : ∀ j, 1 ≤ j → j < k → fetch j = none) :
    pagRun fetch (k + tp + 1) pagInit = some (pagSuccessIds fetch (max k tp)) := by
  have hsplit : k + tp + 1 = (k - 1) + (tp + 2) := by omega
  rw [show pagInit = (⟨1, none, []⟩ : PagState) from rfl, hsplit,
    pagRun_fail_phase fetch (k - 1) (tp + 2) 1 []
      (fun j h1 h2 => hfail j h1 (by omega))]
  have hk1 : 1 + (k - 1) = k := by omega
  rw [hk1]
  have hstep : pagStep fetch ⟨k, none, []⟩ = ⟨k + 1, some tp, [] ++ ids0⟩ := by
    simp [pagStep, hfk]
  have hcond : pagCond ⟨k, none, []⟩ = true := rfl
  rw [show tp + 2 = (tp + 1) + 1 from rfl, pagRun, if_pos hcond, hstep,
    List.nil_append,
    pagRun_known_total fetch (tp + 1) (k + 1) tp ids0 (by omega) (by omega)]
  congr 1
  have hn : tp + 1 - (k + 1) = tp - k := by omega
  rw [hn]
  have hmax : max k tp = (k - 1) + (1 + (tp - k)) := by omega
  rw [pagSuccessIds, hmax,
    pagSuccessIdsFrom_fail_drop fetch (k - 1) 1 (1 + (tp - k))
      (fun j h1 h2 => hfail j h1 (by omega)),
    hk1, show 1 + (tp - k) = (tp - k) + 1 from by omega,
    pagSuccessIdsFrom_succ]
  have hids : pagIdsOf fetch k = ids0 := by simp [pagIdsOf, hfk]
  rw [hids]


/-- C7: for every sequence of page-fetch outcomes in which some page
succeeds (the first being page `k`, declaring `total_pages = tp`), a
failed page is skipped without aborting: the page counter still
advances, later pages are still fetched, the run completes, and the
final output is the ordered concatenation of the identifiers of exactly
the pages that succeeded. -/
theorem paginator_skips_failed_pages (fetch : Nat → Option (List Int × Nat))
    (k tp : Nat) (ids0 : List Int) (hk : 1 ≤ k)
    (hfk : fetch k = some (ids0, tp))
    (hfail : ∀ j, 1 ≤ j → j < k → fetch j = none) :
    pagRun fetch (k + tp + 1) pagInit
      = some (pagSuccessIds fetch (max k tp)) :=
  pagRun_first_success fetch k tp ids0 hk hfk hfail

/-- The spec's scenario for C7: page 1 fails permanently, pages 2 and 3
succeed with `total_pages = 3`. -/
def witnessFetchC7 : Nat → Option (List Int × Nat) :=
  fun p => if p = 2 then some ([21, 22], 3)
    else if p = 3 then some ([31], 3) else none

/-- Witness for C7: with page 1 of 3 timing out permanently, the
Paginator still advances to pages 2 and 3 and returns their ids. -/
theorem paginator_skips_failed_pages_witness :
    pagRun witnessFetchC7 (2 + 3 + 1) pagInit = some [21, 22, 31] := by
  have h := paginator_skips_failed_pages witnessFetchC7 2 3 [21, 22]
    (by decide) (by decide)
    (fun j h1 h2 => by
      have hj : j = 1 := by omega
      subst hj
      rfl)
  rw [h]
  decide

/-- C9 counterexample: if every page fetch fails, the first response
never arrives, `total_pages` stays `None`, the loop condition
`total_pages is None or page <= total_pages` never becomes false, and
the loop never reaches DONE — extraction does not terminate. -/
theorem pagination_diverges_when_all_pages_fail :
    ¬ PagTerminates (fun _ => none) := by
  intro h
  obtain ⟨fuel, hf⟩ := h
  have key : ∀ f (st : PagState), st.totalPages = none →
      pagRun (fun _ => none) f st = none := by
    intro f
    induction f with
    | zero => intro st _; rfl
    | succ f ih =>
      intro st hst
      have hcond : pagCond st = true := by simp [pagCond, hst]
      rw [pagRun, if_pos hcond]
      exact ih _ (by simp [pagStep, hst])
  rw [key fuel pagInit rfl] at hf
  simp at hf

/-- C9 (amended): the pagination loop reaches DONE in finitely many
steps provided at least one page fetch succeeds (the first successful
response declares `total_pages`, bounding the loop); when every fetch
fails the loop never terminates. -/
theorem pagination_terminates_given_success
    (fetch : Nat → Option (List Int × Nat))
    (h : ∃ k ids tp, 1 ≤ k ∧ fetch k = some (ids, tp)) :
    PagTerminates fetch := by
  have hP : ∃ j, 1 ≤ j ∧ (fetch j).isSome := by
    obtain ⟨k, ids, tp, hk, hf⟩ := h
    exact ⟨k, hk, by simp [hf]⟩
  let k0 := Nat.find hP
  have hspec : 1 ≤ k0 ∧ (fetch k0).isSome := Nat.find_spec hP
  cases hf0 : fetch k0 with
  | none => rw [hf0] at hspec; simp at hspec
  | some pr =>
    obtain ⟨ids0, tp⟩ := pr
    have hfail : ∀ j, 1 ≤ j → j < k0 → fetch j = none := by
      intro j h1 hj
      have hmin := Nat.find_min hP hj
      cases hfj : fetch j with
      | none => rfl
      | some q => exact absurd ⟨h1, by simp [hfj]⟩ hmin
    exact ⟨k0 + tp + 1, by
      rw [pagRun_first_success fetch k0 tp ids0 hspec.1 hf0 hfail]
      rfl⟩

/-- A one-page listing for the C9 witness. -/
def witnessFetchC9 : Nat → Option (List Int × Nat) :=
  fun p => if p = 1 then some ([7], 1) else none

/-- Witness for C9: a fetch function whose page 1 succeeds makes the
loop terminate. -/
theorem pagination_terminates_given_success_witness :
    PagTerminates witnessFetchC9 :=
  pagination_terminates_given_success witnessFetchC9 ⟨1, [7], 1, by decide, rfl⟩

end EtlClient
